import Mathlib

set_option autoImplicit false
set_option linter.unusedVariables false
set_option linter.unnecessarySimpa false

/-!
Verification of the undo/redo core of ckeditor5-undo.

The development shallowly embeds the two source files that implement the
core: `src/undocommand.js` (class `UndoCommand`, in particular `addBatch`,
`clearStack` and `_doExecute` with its inner `postFix` helper) and
`src/undoengine.js` (class `UndoEngine`, in particular the change-stream
listener registered in `init`).  External collaborators (the document
model, the history log, the operational-transformation primitives) are
either kept as opaque function parameters (record `Engine`) or modelled
from the spec where noted.
-/

/-- Kind tag carried by a batch.  `user` models the default/unset value
(`batch.type === undefined` in the source); the other two model the
strings `'undo'` and `'redo'`. -/
inductive BatchType where
  | user
  | undo
  | redo
  deriving DecidableEq

/-- Modelled from the spec: a position is a path into the document tree
plus a root identifier.  The engine exposes the last path entry as a
mutable `offset` (the move post-fix adds to it), so the path is split
here into `stem ++ [offset]`. -/
structure Position where
  root : Nat
  stem : List Nat
  offset : Nat
  deriving DecidableEq

/-- Full tree path of a position. -/
def Position.path (p : Position) : List Nat := p.stem ++ [p.offset]

/-- Lexicographic order on tree paths (helper for `Position.isBefore`). -/
def pathLt : List Nat → List Nat → Bool
  | [], [] => false
  | [], _ :: _ => true
  | _ :: _, [] => false
  | a :: as, b :: bs => if a < b then true else if b < a then false else pathLt as bs

/-- Modelled from the spec: the external engine primitive
`Position#isBefore` — document order on positions of the same root;
positions in different roots are never before one another. -/
def Position.isBefore (p q : Position) : Bool :=
  p.root == q.root && pathLt p.path q.path

/-- Modelled from the spec: the external engine primitive
`Position#isAfter`, the mirror of `isBefore`. -/
def Position.isAfter (p q : Position) : Bool :=
  Position.isBefore q p

/-- A range of the document model: a start and an end position.  The end
is called `endPos` because `end` is reserved in Lean. -/
structure Range where
  start : Position
  endPos : Position
  deriving DecidableEq

/-- Primitive operations of the external data model.  Only the fields the
undo code reads are modelled.  `move` additionally carries the
`movedRangeStart` position mutated by the post-fix.  `other` stands for
any operation type not named in the source's `switch` statements. -/
inductive Op where
  | insert (position : Position) (nodeListLength : Nat)
  | move (sourcePosition targetPosition movedRangeStart : Position) (howMany : Nat)
  | remove (sourcePosition targetPosition : Position) (howMany : Nat)
  | reinsert (sourcePosition targetPosition : Position) (howMany : Nat)
  | other
  deriving DecidableEq

/-- The `op.sourcePosition || op.position` access of the post-fix:
source position of a move-like operation, insertion position of an
insert, nothing otherwise. -/
def Op.srcOrPos : Op → Option Position
  | .insert p _ => some p
  | .move s _ _ _ => some s
  | .remove s _ _ => some s
  | .reinsert s _ _ => some s
  | .other => none

/-- A delta: its ordered operations plus the metadata the undo code
reads: `baseVersion`, whether it is an `instanceof MoveDelta`, and the
kind of its owning batch (`delta.batch.type`; `none` models a delta with
no owning batch).  The `id` field models JavaScript object identity (the
`WeakMap` key of the original-delta map). -/
structure Delta where
  id : Nat
  baseVersion : Nat
  operations : List Op
  isMove : Bool
  batchType : Option BatchType
  deriving DecidableEq

/-- A batch: an identity (JavaScript object identity), the kind tag and
the ordered deltas. -/
structure Batch where
  id : Nat
  type : BatchType
  deltas : List Delta
  deriving DecidableEq

/-- Document selection state: ranges plus direction. -/
structure Selection where
  ranges : List Range
  isBackward : Bool
  deriving DecidableEq

/-- The document state visible to the undo code: the root identities, the
graveyard root, the history log, a trace of every operation passed to
`document.applyOperation`, and the selection. -/
structure Document where
  roots : List Nat
  graveyard : Nat
  history : List Delta
  appliedOps : List Op
  selection : Selection
  deriving DecidableEq

/-- Modelled from the spec: `history.getDeltas( sinceBaseVersion )`
returns the history deltas from the given base version on. -/
def getDeltas (hist : List Delta) (v : Nat) : List Delta :=
  hist.filter (fun d => decide (v ≤ d.baseVersion))

/-- The external operational-transformation primitives used as black
boxes by the undo code (`delta.getReversed`,
`history.getTransformedDelta`, the two range transformations and
`Position#isTouching`). -/
structure Engine where
  getReversed : Delta → Delta
  getTransformedDelta : List Delta → Delta → List Delta
  getTransformedByInsertion : Range → Position → Nat → List Range
  getTransformedByMove : Range → Position → Position → Nat → List Range
  isTouching : Position → Position → Bool

/-- An item of the command's stack: the batch plus the selection snapshot
taken when it was recorded. -/
structure HistoryItem where
  batch : Batch
  selection : Selection
  deriving DecidableEq

/-- State of an `UndoCommand` instance: `_items`, `_batchRegistry` (the
weak set of batch identities), `_type` and `_originalDeltas` (the weak
map created once in the constructor). -/
structure UndoCommand where
  items : List HistoryItem
  batchRegistry : List Nat
  type : BatchType
  originalDeltas : List (Nat × Delta)
  deriving DecidableEq

/-- Embedding of the `UndoCommand` constructor. -/
def UndoCommand.make (ty : BatchType) : UndoCommand :=
  { items := [], batchRegistry := [], type := ty, originalDeltas := [] }

/-- Embedding of `UndoCommand#addBatch`: push the batch together with a
snapshot of the current document selection, unless the batch identity is
already registered. -/
def addBatch (c : UndoCommand) (doc : Document) (b : Batch) : UndoCommand :=
  if b.id ∈ c.batchRegistry then c
  else
    { c with
      items := c.items ++ [{ batch := b, selection := doc.selection }]
      batchRegistry := b.id :: c.batchRegistry }

/-- Embedding of `UndoCommand#clearStack`: drops the items.  The source
does not touch `_batchRegistry` here. -/
def clearStack (c : UndoCommand) : UndoCommand :=
  { c with items := [] }

/-- Embedding of `UndoCommand#_checkEnabled`. -/
def checkEnabled (c : UndoCommand) : Bool :=
  decide (0 < c.items.length)

/-- Adds `hHm` to the offset of a position (the
`position.offset += hOp.howMany` mutation of the post-fix). -/
def bumpOffset (p : Position) (k : Nat) : Position :=
  { p with offset := p.offset + k }

/-- One iteration of the inner history loop of the source's `postFix`
helper: check one rebased delta `u` against one history delta `h` and,
when every condition holds, shift `u`'s move by `h`'s `howMany`
(in-place mutation in the source, functional update here). -/
def moveFixStep (origMap : List (Nat × Delta)) (u h : Delta) : Delta :=
  if h.isMove = false then u
  else if ¬(h.batchType = some BatchType.undo ∨ h.batchType = some BatchType.redo) then u
  else
    match u.operations, h.operations with
    | Op.move uSrc uTgt uMrs uHm :: uRest, Op.move _ hTgt _ hHm :: _ =>
      if uTgt = hTgt then
        match origMap.lookup u.id, origMap.lookup h.id with
        | some origU, some origH =>
          match origU.operations.head?.bind Op.srcOrPos,
                origH.operations.head?.bind Op.srcOrPos with
          | some upPos, some hPos =>
            if upPos.isAfter hPos = true then
              { u with operations :=
                  Op.move uSrc (bumpOffset uTgt hHm) (bumpOffset uMrs hHm) uHm :: uRest }
            else u
          | _, _ => u
        | _, _ => u
      else u
    | _, _ => u

/-- Embedding of the source's `postFix` for a single rebased delta: scan
every history delta; deltas that are not single-move deltas are skipped
by the outer guard. -/
def moveFixDelta (origMap : List (Nat × Delta)) (historyDeltas : List Delta) (u : Delta) : Delta :=
  if u.isMove = false then u
  else historyDeltas.foldl (moveFixStep origMap) u

/-- Embedding of the source's `postFix` over the whole list of rebased
deltas. -/
def moveFix (origMap : List (Nat × Delta)) (historyDeltas : List Delta)
    (deltas : List Delta) : List Delta :=
  deltas.map (moveFixDelta origMap historyDeltas)

/-- Sets the batch back-link of a delta, as `reversionBatch.addDelta`
does in the engine (the reversion batch's type is the command's type). -/
def tagDelta (ty : BatchType) (d : Delta) : Delta :=
  { d with batchType := some ty }

/-- State threaded through the reversion loop of `_doExecute`: the
history log (applied deltas enter it), the applied-operation trace, the
original-delta map and the deltas accumulated in the reversion batch. -/
structure RevState where
  history : List Delta
  trace : List Op
  origMap : List (Nat × Delta)
  revDeltas : List Delta
  deriving DecidableEq

/-- Body of the reversion loop of `_doExecute` for one delta of the
undone batch: reverse it, rebase it onto the current history, record the
original-delta map entries, post-fix against the history deltas after
the delta's base version, tag every resulting delta with the reversion
batch's kind, apply its operations and let it enter the history. -/
def revertOne (eng : Engine) (ty : BatchType) (st : RevState) (undoDelta : Delta) : RevState :=
  let r := eng.getReversed undoDelta
  let us := eng.getTransformedDelta st.history r
  let om2 := us.foldl (fun m u => (u.id, undoDelta) :: m) st.origMap
  let tagged := (moveFix om2 (getDeltas st.history undoDelta.baseVersion) us).map (tagDelta ty)
  { history := st.history ++ tagged
    trace := st.trace ++ tagged.flatMap (fun d => d.operations)
    origMap := om2
    revDeltas := st.revDeltas ++ tagged }

/-- Result of transforming one range by one operation; `none` models the
`undefined` result for operation types outside the source's `switch`. -/
def opTransformResult (eng : Engine) (op : Op) (r : Range) : Option (List Range) :=
  match op with
  | .insert pos len => some (eng.getTransformedByInsertion r pos len)
  | .move src tgt _ hm => some (eng.getTransformedByMove r src tgt hm)
  | .remove src tgt hm => some (eng.getTransformedByMove r src tgt hm)
  | .reinsert src tgt hm => some (eng.getTransformedByMove r src tgt hm)
  | .other => none

/-- Embedding of the indexed inner loop of the selection transformation
(`for ( let t = 0; ... )` with `transformed.splice( t, 1, ...result )`
and the `t = t + result.length - 1` fix-up). -/
def transformLoop (eng : Engine) (op : Op) (ts : List Range) (t : Nat) : List Range :=
  if h : t < ts.length then
    match opTransformResult eng op (ts.get ⟨t, h⟩) with
    | some rs => transformLoop eng op (ts.take t ++ rs ++ ts.drop (t + 1)) (t + rs.length)
    | none => transformLoop eng op ts (t + 1)
  else ts
termination_by ts.length - t
decreasing_by
  · simp only [List.length_append, List.length_take, List.length_drop]
    omega
  · omega

/-- Functional reading of the inner loop: each range is replaced in
place by its transformation result (kept when the result is
`undefined`), and freshly inserted pieces are not re-transformed by the
same operation. -/
def transformPass (eng : Engine) (op : Op) : List Range → List Range
  | [] => []
  | r :: rest =>
    match opTransformResult eng op r with
    | some rs => rs ++ transformPass eng op rest
    | none => r :: transformPass eng op rest

/-- Insertion step of the sort modelling the source's
`transformed.sort( ( a, b ) => a.start.isBefore( b.start ) ? -1 : 1 )`. -/
def sortInsert (x : Range) : List Range → List Range
  | [] => [x]
  | y :: l => if x.start.isBefore y.start = true then x :: y :: l else y :: sortInsert x l

/-- Modelled from the spec: the external array sort on the comparator
above, as a stable insertion sort. -/
def sortRanges : List Range → List Range
  | [] => []
  | x :: l => sortInsert x (sortRanges l)

/-- Embedding of the touching-range coalescing loop of `_doExecute`
(`for ( let i = 1; ... )` with `a.end = b.end; transformed.splice( i, 1 );
i--`). -/
def coalesceLoop (eng : Engine) (ts : List Range) (i : Nat) : List Range :=
  if h : i < ts.length then
    if h1 : 1 ≤ i then
      if eng.isTouching (ts.get ⟨i - 1, by omega⟩).endPos (ts.get ⟨i, h⟩).start = true then
        coalesceLoop eng
          ((ts.set (i - 1)
            { ts.get ⟨i - 1, by omega⟩ with endPos := (ts.get ⟨i, h⟩).endPos }).eraseIdx i) i
      else coalesceLoop eng ts (i + 1)
    else ts
  else ts
termination_by 2 * ts.length - i
decreasing_by
  · rw [List.length_eraseIdx_of_lt (by simpa using h)]
    simp only [List.length_set]
    omega
  · omega

/-- Functional reading of the coalescing loop, carrying the range
currently being grown: when the current range touches the next one it
absorbs its end and the scan continues from the grown range, exactly as
the source loop re-examines index `i - 1` after the splice. -/
def coalesceGo (eng : Engine) (cur : Range) : List Range → List Range
  | [] => [cur]
  | b :: rest =>
    if eng.isTouching cur.endPos b.start = true then
      coalesceGo eng { cur with endPos := b.endPos } rest
    else cur :: coalesceGo eng b rest

/-- Functional reading of the coalescing loop: merge consecutive
touching ranges of a sorted list. -/
def coalesce (eng : Engine) : List Range → List Range
  | [] => []
  | a :: rest => coalesceGo eng a rest

/-- Embedding of the per-saved-range selection transformation of
`_doExecute`: transform by every operation of every intervening history
delta, sort by start position, coalesce touching neighbours, then take
the first range whose start root is not the graveyard.  The two
imperative loops of the source are embedded separately as
`transformLoop` and `coalesceLoop`; this definition uses their
functional readings, which are proved equal to the loops below. -/
def transformOneRange (eng : Engine) (gy : Nat) (deltas : List Delta)
    (originalRange : Range) : Option Range :=
  let transformed := deltas.foldl
    (fun ts delta => delta.operations.foldl (fun ts2 op => transformPass eng op ts2) ts)
    [originalRange]
  (coalesce eng (sortRanges transformed)).find? (fun r => decide (r.start.root ≠ gy))

/-- JavaScript `array.splice( i, 1 )`: the array after the removal and
the removed element, if any; a negative index counts from the end. -/
def jsSpliceOne {α : Type _} (l : List α) (i : Int) : List α × Option α :=
  let start : Nat := if i < 0 then l.length - (-i).toNat else i.toNat
  (l.take start ++ l.drop (start + 1), l.get? start)

/-- The index computed at the top of `_doExecute`: `findIndex` of the
given batch on the stack (`-1` when absent), or the index of the top
item when no batch is given. -/
def batchIndexOf (c : UndoCommand) (batch : Option Batch) : Int :=
  match batch with
  | some b =>
    match c.items.findIdx? (fun a => a.batch.id == b.id) with
    | some i => (i : Int)
    | none => -1
  | none => (c.items.length : Int) - 1

/-- The `this._batchRegistry.delete( batch )` line of `_doExecute`: it
deletes the identity of the batch *argument* (which is `null` when the
command pops the top item). -/
def registryDelete (c : UndoCommand) (batch : Option Batch) : List Nat :=
  match batch with
  | some b => c.batchRegistry.erase b.id
  | none => c.batchRegistry

/-- Embedding of `UndoCommand#_doExecute`.  The `Except` error carries
the state at the point where the source would throw a `TypeError`
(`undoItem` being `undefined` after the splice, or
`undoBatch.deltas[ 0 ]` being `undefined`); mutations performed before
the throw are kept.  On success the result is the new command state, the
new document state, the reversion batch and the reverted batch (the
argument of the `revert` event). -/
def doExecute (eng : Engine) (c : UndoCommand) (doc : Document) (batch : Option Batch) :
    Except (UndoCommand × Document) (UndoCommand × Document × Batch × Batch) :=
  match jsSpliceOne c.items (batchIndexOf c batch) with
  | (items2, none) =>
    .error ({ c with items := items2, batchRegistry := registryDelete c batch }, doc)
  | (items2, some undoItem) =>
    let st := undoItem.batch.deltas.reverse.foldl (revertOne eng c.type)
      { history := doc.history, trace := doc.appliedOps
        origMap := c.originalDeltas, revDeltas := [] }
    let c2 : UndoCommand :=
      { c with items := items2, batchRegistry := registryDelete c batch
               originalDeltas := st.origMap }
    match undoItem.batch.deltas.head? with
    | none =>
      .error (c2, { doc with history := st.history, appliedOps := st.trace })
    | some d0 =>
      let transformedRanges := undoItem.selection.ranges.filterMap
        (transformOneRange eng doc.graveyard (getDeltas st.history d0.baseVersion))
      let sel :=
        if transformedRanges.isEmpty then doc.selection
        else { ranges := transformedRanges, isBackward := undoItem.selection.isBackward }
      .ok (c2,
        { doc with history := st.history, appliedOps := st.trace, selection := sel },
        { id := 0, type := c.type, deltas := st.revDeltas },
        undoItem.batch)

/-- State of the `UndoEngine` feature: its two commands. -/
structure UndoEngine where
  undoCommand : UndoCommand
  redoCommand : UndoCommand
  deriving DecidableEq

/-- Embedding of the change-stream listener registered in
`UndoEngine#init`: route an incoming batch by its kind tag. -/
def onChangeBatch (e : UndoEngine) (doc : Document) (batch : Batch) : UndoEngine :=
  match batch.type with
  | .user =>
    { e with undoCommand := addBatch e.undoCommand doc batch
             redoCommand := clearStack e.redoCommand }
  | .undo => { e with redoCommand := addBatch e.redoCommand doc batch }
  | .redo => { e with undoCommand := addBatch e.undoCommand doc batch }

/-- Modelled from the spec: an operation touches a document root when
one of its positions lives in a document root. -/
def opTouchesDocument (roots : List Nat) : Op → Bool
  | .insert p _ => roots.contains p.root
  | .move s t _ _ => roots.contains s.root || roots.contains t.root
  | .remove s t _ => roots.contains s.root || roots.contains t.root
  | .reinsert s t _ => roots.contains s.root || roots.contains t.root
  | .other => false

/-- Modelled from the spec: a batch is non-document when none of its
deltas contains an operation touching a document root. -/
def batchIsNonDocument (roots : List Nat) (b : Batch) : Bool :=
  b.deltas.all (fun d => d.operations.all (fun op => !opTouchesDocument roots op))

/-- Specification-side reading of Stage A, following the spec's words:
process the already-reversed delta list in order; for each delta,
reverse it, rebase it with `getTransformedDelta`, record the
original-delta map entries, post-fix against the history from the
delta's base version, and tag the results with the command kind; applied
deltas extend the history seen by later iterations. -/
def stageASpec (eng : Engine) (ty : BatchType) :
    List Delta → List Delta → List (Nat × Delta) → List Delta
  | [], _, _ => []
  | d :: ds, hist, om =>
    let r := eng.getReversed d
    let us := eng.getTransformedDelta hist r
    let om2 := us.foldl (fun m u => (u.id, d) :: m) om
    let tagged := (moveFix om2 (getDeltas hist d.baseVersion) us).map (tagDelta ty)
    tagged ++ stageASpec eng ty ds (hist ++ tagged) om2

/-- Folding `addBatch` over a sequence of recorded batches (each with
the document state at record time). -/
def recordAll (c : UndoCommand) (bs : List (Document × Batch)) : UndoCommand :=
  bs.foldl (fun c2 p => addBatch c2 p.1 p.2) c

/-- A trivial engine instance used by the concrete evaluations below:
reversal and rebasing are identities, range transformations keep the
range, and no two positions touch. -/
def engW : Engine :=
  { getReversed := fun d => d
    getTransformedDelta := fun _ d => [d]
    getTransformedByInsertion := fun r _ _ => [r]
    getTransformedByMove := fun r _ _ _ => [r]
    isTouching := fun _ _ => false }

/-- Empty selection. -/
def selW : Selection := { ranges := [], isBackward := false }

/-- A one-operation delta of a user batch. -/
def d1 : Delta :=
  { id := 1, baseVersion := 0, operations := [Op.other], isMove := false, batchType := none }

/-- A user batch holding `d1`. -/
def b1 : Batch := { id := 1, type := BatchType.user, deltas := [d1] }

/-- The stack item recording `b1`. -/
def itW : HistoryItem := { batch := b1, selection := selW }

/-- An undo command whose stack holds exactly `b1`. -/
def cW : UndoCommand :=
  { items := [itW], batchRegistry := [1], type := BatchType.undo, originalDeltas := [] }

/-- A document with one root, an empty history and an empty selection. -/
def docW : Document :=
  { roots := [0], graveyard := 7, history := [], appliedOps := [], selection := selW }

/-- `d1` as tagged by the reversion batch. -/
def d1u : Delta :=
  { id := 1, baseVersion := 0, operations := [Op.other], isMove := false
    batchType := some BatchType.undo }

/-- Command state after executing `cW` on `docW`. -/
def cW2 : UndoCommand :=
  { items := [], batchRegistry := [1], type := BatchType.undo, originalDeltas := [(1, d1)] }

/-- Document state after executing `cW` on `docW`. -/
def docW2 : Document :=
  { roots := [0], graveyard := 7, history := [d1u], appliedOps := [Op.other], selection := selW }

/-- The reversion batch emitted by that execution. -/
def rbW : Batch := { id := 0, type := BatchType.undo, deltas := [d1u] }

/-- A collapsed range at offset 3 of root 0. -/
def r0 : Range :=
  { start := { root := 0, stem := [], offset := 3 }
    endPos := { root := 0, stem := [], offset := 3 } }

/-- A one-operation delta of a second user batch. -/
def dS : Delta :=
  { id := 3, baseVersion := 0, operations := [Op.other], isMove := false, batchType := none }

/-- A user batch holding `dS`. -/
def bS : Batch := { id := 2, type := BatchType.user, deltas := [dS] }

/-- An item recording `bS` with a one-range backward selection. -/
def itS : HistoryItem := { batch := bS, selection := { ranges := [r0], isBackward := true } }

/-- An undo command whose stack holds exactly `bS`. -/
def cS : UndoCommand :=
  { items := [itS], batchRegistry := [2], type := BatchType.undo, originalDeltas := [] }

/-- `dS` as tagged by the reversion batch. -/
def dSu : Delta :=
  { id := 3, baseVersion := 0, operations := [Op.other], isMove := false
    batchType := some BatchType.undo }

/-- Command state after executing `cS` on `docW`. -/
def cS2 : UndoCommand :=
  { items := [], batchRegistry := [2], type := BatchType.undo, originalDeltas := [(3, dS)] }

/-- Document state after executing `cS` on `docW`. -/
def docS2 : Document :=
  { roots := [0], graveyard := 7, history := [dSu], appliedOps := [Op.other]
    selection := { ranges := [r0], isBackward := true } }

/-- The reversion batch emitted by that execution. -/
def rbS : Batch := { id := 0, type := BatchType.undo, deltas := [dSu] }

/-- Position at offset `k` of root 0. -/
def posN (k : Nat) : Position := { root := 0, stem := [], offset := k }

/-- Original delta mapped to by the rebased delta `u5`. -/
def dOrigU : Delta :=
  { id := 100, baseVersion := 0, operations := [Op.move (posN 4) (posN 9) (posN 9) 2]
    isMove := true, batchType := none }

/-- Original delta mapped to by the history delta `h5`. -/
def dOrigH : Delta :=
  { id := 200, baseVersion := 0, operations := [Op.move (posN 1) (posN 9) (posN 9) 3]
    isMove := true, batchType := none }

/-- A rebased single-move delta targeting offset 5. -/
def u5 : Delta :=
  { id := 10, baseVersion := 5, operations := [Op.move (posN 2) (posN 5) (posN 5) 2]
    isMove := true, batchType := none }

/-- A history single-move delta of an undo batch, also targeting
offset 5 and moving 3 nodes. -/
def h5 : Delta :=
  { id := 20, baseVersion := 3, operations := [Op.move (posN 7) (posN 5) (posN 6) 3]
    isMove := true, batchType := some BatchType.undo }

/-- Original-delta map for the post-fix evaluation. -/
def m5 : List (Nat × Delta) := [(10, dOrigU), (20, dOrigH)]

/-- `u5` after the post-fix shift by `h5`'s `howMany`. -/
def u5fixed : Delta :=
  { id := 10, baseVersion := 5, operations := [Op.move (posN 2) (posN 8) (posN 8) 2]
    isMove := true, batchType := none }

/-- A batch that is on no stack. -/
def bX : Batch := { id := 2, type := BatchType.user, deltas := [] }

/-- A delta whose only operation touches only the detached root 99. -/
def dDet : Delta :=
  { id := 5, baseVersion := 0
    operations := [Op.insert { root := 99, stem := [], offset := 0 } 1]
    isMove := false, batchType := none }

/-- A user batch all of whose operations target a detached fragment. -/
def bDet : Batch := { id := 3, type := BatchType.user, deltas := [dDet] }

/-- A freshly initialised undo engine. -/
def e0 : UndoEngine :=
  { undoCommand := UndoCommand.make BatchType.undo
    redoCommand := UndoCommand.make BatchType.redo }

/-- Element at the junction of an append. -/
theorem getAppendLen {α : Type _} : ∀ (pre : List α) (x : α) (l : List α)
    (h : pre.length < (pre ++ x :: l).length), (pre ++ x :: l).get ⟨pre.length, h⟩ = x
  | [], x, l, h => rfl
  | p :: ps, x, l, h => getAppendLen ps x l (by simpa using h)

/-- Setting the element at the junction of an append. -/
theorem setAppendLen {α : Type _} : ∀ (pre : List α) (x y : α) (l : List α),
    (pre ++ x :: l).set pre.length y = pre ++ y :: l
  | [], x, y, l => rfl
  | p :: ps, x, y, l => congrArg (fun t => p :: t) (setAppendLen ps x y l)

/-- Erasing the element at the junction of an append. -/
theorem eraseIdxAppendLen {α : Type _} : ∀ (pre : List α) (x : α) (l : List α),
    (pre ++ x :: l).eraseIdx pre.length = pre ++ l
  | [], x, l => rfl
  | p :: ps, x, l => congrArg (fun t => p :: t) (eraseIdxAppendLen ps x l)

/-- The indexed transformation loop started behind a processed prefix
computes the functional pass on the remaining ranges. -/
theorem transformLoop_eq_go (eng : Engine) (op : Op) :
    ∀ (ts pre : List Range),
      transformLoop eng op (pre ++ ts) pre.length = pre ++ transformPass eng op ts := by
  intro ts
  induction ts with
  | nil =>
    intro pre
    rw [transformLoop]
    simp [transformPass]
  | cons r rest ih =>
    intro pre
    rw [transformLoop]
    have hlen : pre.length < (pre ++ r :: rest).length := by simp
    rw [dif_pos hlen, getAppendLen pre r rest hlen]
    have htake : (pre ++ r :: rest).take pre.length = pre := List.take_left pre (r :: rest)
    have hdrop : (pre ++ r :: rest).drop (pre.length + 1) = rest := by
      have h2 : pre ++ r :: rest = (pre ++ [r]) ++ rest := by simp
      have h3 : pre.length + 1 = (pre ++ [r]).length := by simp
      rw [h2, h3, List.drop_left]
    cases hres : opTransformResult eng op r with
    | none =>
      simp only [hres]
      have h4 : pre ++ r :: rest = (pre ++ [r]) ++ rest := by simp
      have h5 : pre.length + 1 = (pre ++ [r]).length := by simp
      rw [h4, h5, ih (pre ++ [r])]
      simp [transformPass, hres]
    | some rs =>
      simp only [hres, htake, hdrop]
      have h6 : pre ++ rs ++ rest = (pre ++ rs) ++ rest := by simp
      have h7 : pre.length + rs.length = (pre ++ rs).length := by simp
      rw [List.append_assoc pre rs rest] at h6
      have := ih (pre ++ rs)
      calc transformLoop eng op (pre ++ rs ++ rest) (pre.length + rs.length)
          = transformLoop eng op ((pre ++ rs) ++ rest) (pre ++ rs).length := by
            rw [List.append_assoc]; rw [h7]
        _ = (pre ++ rs) ++ transformPass eng op rest := ih (pre ++ rs)
        _ = pre ++ transformPass eng op (r :: rest) := by
            simp [transformPass, hres]

/-- The indexed transformation loop started at index 0 is the functional
pass. -/
theorem transformLoop_zero (eng : Engine) (op : Op) (ts : List Range) :
    transformLoop eng op ts 0 = transformPass eng op ts := by
  simpa using transformLoop_eq_go eng op ts []

/-- Element one past the junction of an append. -/
theorem getAppendLen1 {α : Type _} : ∀ (pre : List α) (x y : α) (l : List α)
    (h : pre.length + 1 < (pre ++ x :: y :: l).length),
    (pre ++ x :: y :: l).get ⟨pre.length + 1, h⟩ = y
  | [], x, y, l, h => rfl
  | p :: ps, x, y, l, h => getAppendLen1 ps x y l (by simpa using h)

/-- Erasing the element one past the junction of an append. -/
theorem eraseIdxAppendLen1 {α : Type _} : ∀ (pre : List α) (x y : α) (l : List α),
    (pre ++ x :: y :: l).eraseIdx (pre.length + 1) = pre ++ x :: l
  | [], x, y, l => rfl
  | p :: ps, x, y, l => congrArg (fun t => p :: t) (eraseIdxAppendLen1 ps x y l)

/-- The coalescing loop running behind an already-processed prefix
computes the functional merge of the remaining ranges, grown from the
range just before the loop index. -/
theorem coalesceLoop_eq_go (eng : Engine) :
    ∀ (ts pre : List Range) (a : Range),
      coalesceLoop eng (pre ++ a :: ts) (pre.length + 1) = pre ++ coalesceGo eng a ts := by
  intro ts
  induction ts with
  | nil =>
    intro pre a
    rw [coalesceLoop]
    have hnot : ¬(pre.length + 1 < (pre ++ [a]).length) := by simp
    rw [dif_neg hnot]
    rfl
  | cons b rest ih =>
    intro pre a
    rw [coalesceLoop]
    have hlen : pre.length + 1 < (pre ++ a :: b :: rest).length := by
      simp
    rw [dif_pos hlen, dif_pos (by omega : 1 ≤ pre.length + 1)]
    simp only [Nat.add_sub_cancel]
    rw [getAppendLen pre a (b :: rest) (by simp), getAppendLen1 pre a b rest hlen]
    cases htouch : eng.isTouching a.endPos b.start with
    | true =>
      rw [if_pos rfl]
      rw [setAppendLen pre a { a with endPos := b.endPos } (b :: rest)]
      rw [eraseIdxAppendLen1 pre { a with endPos := b.endPos } b rest,
        ih pre { a with endPos := b.endPos }]
      simp [coalesceGo, htouch]
    | false =>
      rw [if_neg (by simp)]
      have h3 : pre ++ a :: b :: rest = (pre ++ [a]) ++ b :: rest := by simp
      have h4 : pre.length + 1 + 1 = (pre ++ [a]).length + 1 := by simp
      rw [h3, h4, ih (pre ++ [a]) b]
      simp [coalesceGo, htouch]

/-- The coalescing loop started at index 1 is the functional merge. -/
theorem coalesceLoop_one (eng : Engine) : ∀ ts : List Range,
    coalesceLoop eng ts 1 = coalesce eng ts := by
  intro ts
  match ts with
  | [] =>
    rw [coalesceLoop]
    have hemp : ¬(1 < ([] : List Range).length) := by simp
    rw [dif_neg hemp]
    rfl
  | a :: rest =>
    have hgo := coalesceLoop_eq_go eng rest [] a
    simpa [coalesce] using hgo

/-- The reversion fold accumulates exactly the Stage A deltas in the
reversion batch. -/
theorem revertFold_revDeltas (eng : Engine) (ty : BatchType) :
    ∀ (ds : List Delta) (st : RevState),
      (ds.foldl (revertOne eng ty) st).revDeltas
        = st.revDeltas ++ stageASpec eng ty ds st.history st.origMap := by
  intro ds
  induction ds with
  | nil =>
    intro st
    simp [stageASpec]
  | cons d ds ih =>
    intro st
    rw [List.foldl_cons, ih]
    simp [revertOne, stageASpec, List.append_assoc]

/-- The reversion fold appends exactly the Stage A deltas to the
history. -/
theorem revertFold_history (eng : Engine) (ty : BatchType) :
    ∀ (ds : List Delta) (st : RevState),
      (ds.foldl (revertOne eng ty) st).history
        = st.history ++ stageASpec eng ty ds st.history st.origMap := by
  intro ds
  induction ds with
  | nil =>
    intro st
    simp [stageASpec]
  | cons d ds ih =>
    intro st
    rw [List.foldl_cons, ih]
    simp [revertOne, stageASpec, List.append_assoc]

/-- The reversion fold applies exactly the operations of the Stage A
deltas, in order. -/
theorem revertFold_trace (eng : Engine) (ty : BatchType) :
    ∀ (ds : List Delta) (st : RevState),
      (ds.foldl (revertOne eng ty) st).trace
        = st.trace ++ (stageASpec eng ty ds st.history st.origMap).flatMap
            (fun d => d.operations) := by
  intro ds
  induction ds with
  | nil =>
    intro st
    simp [stageASpec]
  | cons d ds ih =>
    intro st
    rw [List.foldl_cons, ih]
    simp [revertOne, stageASpec, List.append_assoc]

/-- Prepending entries with a fold only extends an association list. -/
theorem consFold_ext (d : Delta) : ∀ (us : List Delta) (m : List (Nat × Delta)),
    ∃ m2, us.foldl (fun acc u => (u.id, d) :: acc) m = m2 ++ m := by
  intro us
  induction us with
  | nil =>
    intro m
    exact ⟨[], rfl⟩
  | cons u us ih =>
    intro m
    obtain ⟨m2, hm⟩ := ih ((u.id, d) :: m)
    refine ⟨m2 ++ [(u.id, d)], ?_⟩
    rw [List.foldl_cons, hm]
    simp

/-- The reversion fold only extends the original-delta map: no entry is
ever removed. -/
theorem revertFold_origMap (eng : Engine) (ty : BatchType) :
    ∀ (ds : List Delta) (st : RevState),
      ∃ m2, (ds.foldl (revertOne eng ty) st).origMap = m2 ++ st.origMap := by
  intro ds
  induction ds with
  | nil =>
    intro st
    exact ⟨[], rfl⟩
  | cons d ds ih =>
    intro st
    obtain ⟨m2, h2⟩ := ih (revertOne eng ty st d)
    obtain ⟨m1, h1⟩ := consFold_ext d
      (eng.getTransformedDelta st.history (eng.getReversed d)) st.origMap
    refine ⟨m2 ++ m1, ?_⟩
    rw [List.foldl_cons, h2]
    have hst : (revertOne eng ty st d).origMap
        = m1 ++ st.origMap := by
      simpa [revertOne] using h1
    rw [hst, List.append_assoc]

/-- C3: For every saved selection range, the candidate ranges produced by
transforming the original range with every operation of every
intervening history delta (the indexed splice loop `transformLoop`) are
first sorted by start position, then consecutive touching ranges are
merged by the index loop `coalesceLoop` (the first range absorbs the
second's end and the second is dropped) before any graveyard filtering,
and only then is the first range whose start root is not the graveyard
chosen; this imperative pipeline computes exactly `transformOneRange`,
the per-range function used by `doExecute`, which yields `none` (the
range contributes nothing) when every candidate is in the graveyard. -/
theorem selection_pipeline (eng : Engine) (gy : Nat) (deltas : List Delta) (R : Range) :
    (coalesceLoop eng
        (sortRanges (deltas.foldl
          (fun ts delta => delta.operations.foldl (fun ts2 op => transformLoop eng op ts2 0) ts)
          [R])) 1).find? (fun r => decide (r.start.root ≠ gy))
      = transformOneRange eng gy deltas R := by
  have hfun : (fun (ts2 : List Range) (op : Op) => transformLoop eng op ts2 0)
      = fun (ts2 : List Range) (op : Op) => transformPass eng op ts2 := by
    funext ts2 op
    exact transformLoop_zero eng op ts2
  rw [coalesceLoop_one, hfun]
  rfl

/-- C2: the change-stream listener routes every incoming batch by its
kind tag: an unset (user) kind is recorded on the undo stack and the
redo stack is cleared (left empty); kind undo is recorded on the redo
stack only; kind redo is recorded on the undo stack only. -/
theorem batch_routing (e : UndoEngine) (doc : Document) (b : Batch) :
    (b.type = BatchType.user →
      onChangeBatch e doc b
        = { e with undoCommand := addBatch e.undoCommand doc b
                   redoCommand := clearStack e.redoCommand }
      ∧ (onChangeBatch e doc b).redoCommand.items = []) ∧
    (b.type = BatchType.undo →
      onChangeBatch e doc b = { e with redoCommand := addBatch e.redoCommand doc b }) ∧
    (b.type = BatchType.redo →
      onChangeBatch e doc b = { e with undoCommand := addBatch e.undoCommand doc b }) := by
  refine ⟨?_, ?_, ?_⟩
  · intro h
    constructor
    · simp [onChangeBatch, h]
    · simp [onChangeBatch, h, clearStack]
  · intro h
    simp [onChangeBatch, h]
  · intro h
    simp [onChangeBatch, h]

/-- Witness for C2: routing a concrete user batch records it on the undo
side and leaves the redo stack empty. -/
theorem batch_routing_witness :
    onChangeBatch e0 docW b1
      = { e0 with undoCommand := addBatch e0.undoCommand docW b1
                  redoCommand := clearStack e0.redoCommand }
    ∧ (onChangeBatch e0 docW b1).redoCommand.items = [] :=
  (batch_routing e0 docW b1).1 rfl

/-- The post-fix step ignores history deltas with no owning batch or a
user-kinded owning batch. -/
theorem moveFixStep_skip (m : List (Nat × Delta)) (u h : Delta)
    (hk : h.batchType = none ∨ h.batchType = some BatchType.user) :
    moveFixStep m u h = u := by
  by_cases him : h.isMove = false
  · simp [moveFixStep, him]
  · have hcond : ¬(h.batchType = some BatchType.undo ∨ h.batchType = some BatchType.redo) := by
      rcases hk with hk | hk <;> simp [hk]
    simp [moveFixStep, him, hcond]

/-- C5: During a step, the post-fix shifts a rebased single-move delta
`u` exactly under the source's conditions.  Conjunct 1: against a single
history delta `h` that is a single-move delta of an undo- or redo-kinded
batch, with the same move target as `u` and whose original (pre-rebase)
source/insert position is before that of `u`'s original delta, both the
target-position offset and the moved-range-start offset of `u`'s move
are increased by `h.howMany`.  Conjuncts 2-5: no shift happens from a
history delta of a user-kinded batch (or one with no batch), from a
non-move history delta, when the targets differ, or when the original
position of `u` is not after that of `h`. -/
theorem moveFix_conflict :
    (∀ (m : List (Nat × Delta)) (u h : Delta)
       (uSrc uTgt uMrs : Position) (uHm : Nat) (uRest : List Op)
       (hSrc hTgt hMrs : Position) (hHm : Nat) (hRest : List Op)
       (origU origH : Delta) (upPos hPos : Position),
       u.isMove = true →
       u.operations = Op.move uSrc uTgt uMrs uHm :: uRest →
       h.isMove = true →
       (h.batchType = some BatchType.undo ∨ h.batchType = some BatchType.redo) →
       h.operations = Op.move hSrc hTgt hMrs hHm :: hRest →
       uTgt = hTgt →
       m.lookup u.id = some origU →
       m.lookup h.id = some origH →
       origU.operations.head?.bind Op.srcOrPos = some upPos →
       origH.operations.head?.bind Op.srcOrPos = some hPos →
       upPos.isAfter hPos = true →
       moveFixDelta m [h] u =
         { u with operations :=
             Op.move uSrc (bumpOffset uTgt hHm) (bumpOffset uMrs hHm) uHm :: uRest }) ∧
    (∀ (m : List (Nat × Delta)) (u : Delta) (hs1 hs2 : List Delta) (h : Delta),
       (h.batchType = none ∨ h.batchType = some BatchType.user) →
       moveFixDelta m (hs1 ++ h :: hs2) u = moveFixDelta m (hs1 ++ hs2) u) ∧
    (∀ (m : List (Nat × Delta)) (u h : Delta),
       h.isMove = false → moveFixStep m u h = u) ∧
    (∀ (m : List (Nat × Delta)) (u h : Delta)
       (uSrc uTgt uMrs : Position) (uHm : Nat) (uRest : List Op)
       (hSrc hTgt hMrs : Position) (hHm : Nat) (hRest : List Op),
       u.operations = Op.move uSrc uTgt uMrs uHm :: uRest →
       h.operations = Op.move hSrc hTgt hMrs hHm :: hRest →
       uTgt ≠ hTgt →
       moveFixStep m u h = u) ∧
    (∀ (m : List (Nat × Delta)) (u h : Delta)
       (uSrc uTgt uMrs : Position) (uHm : Nat) (uRest : List Op)
       (hSrc hTgt hMrs : Position) (hHm : Nat) (hRest : List Op)
       (origU origH : Delta) (upPos hPos : Position),
       u.operations = Op.move uSrc uTgt uMrs uHm :: uRest →
       h.operations = Op.move hSrc hTgt hMrs hHm :: hRest →
       uTgt = hTgt →
       m.lookup u.id = some origU →
       m.lookup h.id = some origH →
       origU.operations.head?.bind Op.srcOrPos = some upPos →
       origH.operations.head?.bind Op.srcOrPos = some hPos →
       upPos.isAfter hPos = false →
       moveFixStep m u h = u) := by
  refine ⟨?_, ?_, ?_, ?_, ?_⟩
  · intro m u h uSrc uTgt uMrs uHm uRest hSrc hTgt hMrs hHm hRest origU origH upPos hPos
    intro hu huops hh hk hhops htgt hlu hlh hpu hph hafter
    rcases hk with hk | hk <;>
      simp [moveFixDelta, moveFixStep, hu, hh, hk, huops, hhops, htgt, hlu, hlh, hpu, hph,
        hafter]
  · intro m u hs1 hs2 h hk
    cases hm : u.isMove with
    | false => simp [moveFixDelta, hm]
    | true =>
      simp only [moveFixDelta, hm]
      rw [if_neg (by simp), if_neg (by simp)]
      rw [List.foldl_append, List.foldl_append, List.foldl_cons, moveFixStep_skip m _ h hk]
  · intro m u h him
    simp [moveFixStep, him]
  · intro m u h uSrc uTgt uMrs uHm uRest hSrc hTgt hMrs hHm hRest huops hhops hne
    by_cases him : h.isMove = false
    · simp [moveFixStep, him]
    · by_cases hk : h.batchType = some BatchType.undo ∨ h.batchType = some BatchType.redo
      · rcases hk with hk | hk <;> simp [moveFixStep, him, hk, huops, hhops, hne]
      · simp [moveFixStep, him, hk]
  · intro m u h uSrc uTgt uMrs uHm uRest hSrc hTgt hMrs hHm hRest origU origH upPos hPos
    intro huops hhops htgt hlu hlh hpu hph hafter
    by_cases him : h.isMove = false
    · simp [moveFixStep, him]
    · by_cases hk : h.batchType = some BatchType.undo ∨ h.batchType = some BatchType.redo
      · rcases hk with hk | hk <;>
          simp [moveFixStep, him, hk, huops, hhops, htgt, hlu, hlh, hpu, hph, hafter]
      · simp [moveFixStep, him, hk]

/-- Witness for C5: a concrete conflict where the history undo-move `h5`
(3 nodes, same target offset 5, earlier original position) shifts the
rebased move `u5` by 3 on both offsets. -/
theorem moveFix_conflict_witness : moveFixDelta m5 [h5] u5 = u5fixed := by
  have h := moveFix_conflict.1 m5 u5 h5 (posN 2) (posN 5) (posN 5) 2 [] (posN 7) (posN 5)
    (posN 6) 3 [] dOrigU dOrigH (posN 4) (posN 1) rfl rfl rfl (Or.inl rfl) rfl rfl rfl rfl
    rfl rfl rfl
  exact h

/-- Invariant of recording a sequence of batches: starting from a state
whose item identities are distinct and all registered, the recorded
items keep distinct identities, and every identity comes from the start
state or from the recorded sequence. -/
theorem recordAll_inv : ∀ (bs : List (Document × Batch)) (c : UndoCommand),
    (c.items.map (fun i => i.batch.id)).Nodup →
    (∀ x ∈ c.items.map (fun i => i.batch.id), x ∈ c.batchRegistry) →
    ((recordAll c bs).items.map (fun i => i.batch.id)).Nodup ∧
      ∀ x ∈ (recordAll c bs).items.map (fun i => i.batch.id),
        x ∈ c.items.map (fun i => i.batch.id) ++ bs.map (fun p => p.2.id) := by
  intro bs
  induction bs with
  | nil =>
    intro c h1 h2
    refine ⟨h1, ?_⟩
    intro x hx
    simp only [recordAll, List.foldl_nil] at hx
    simp [hx]
  | cons p bs ih =>
    intro c h1 h2
    have hrec : recordAll c (p :: bs) = recordAll (addBatch c p.1 p.2) bs := rfl
    by_cases hmem : p.2.id ∈ c.batchRegistry
    · have hadd : addBatch c p.1 p.2 = c := by simp [addBatch, hmem]
      rw [hrec, hadd]
      obtain ⟨hnd, hsub⟩ := ih c h1 h2
      refine ⟨hnd, ?_⟩
      intro x hx
      have := hsub x hx
      rw [List.mem_append] at this ⊢
      rcases this with hl | hr
      · exact Or.inl hl
      · exact Or.inr (List.mem_cons_of_mem _ hr)
    · have hadd : addBatch c p.1 p.2
          = { c with items := c.items ++ [{ batch := p.2, selection := p.1.selection }]
                     batchRegistry := p.2.id :: c.batchRegistry } := by
        simp [addBatch, hmem]
      have hnotin : p.2.id ∉ c.items.map (fun i => i.batch.id) := fun hin => hmem (h2 _ hin)
      have hmap : ((addBatch c p.1 p.2).items.map (fun i => i.batch.id))
          = c.items.map (fun i => i.batch.id) ++ [p.2.id] := by
        rw [hadd]
        simp
      have h1b : ((addBatch c p.1 p.2).items.map (fun i => i.batch.id)).Nodup := by
        rw [hmap, List.nodup_append]
        refine ⟨h1, by simp, ?_⟩
        intro x hx
        simp only [List.mem_singleton]
        intro hxe
        exact hnotin (hxe ▸ hx)
      have h2b : ∀ x ∈ (addBatch c p.1 p.2).items.map (fun i => i.batch.id),
          x ∈ (addBatch c p.1 p.2).batchRegistry := by
        intro x hx
        rw [hmap, List.mem_append] at hx
        rw [hadd]
        rcases hx with hl | hr
        · exact List.mem_cons_of_mem _ (h2 _ hl)
        · rw [List.mem_singleton] at hr
          simp [hr]
      obtain ⟨hnd, hsub⟩ := ih (addBatch c p.1 p.2) h1b h2b
      rw [hrec]
      refine ⟨hnd, ?_⟩
      intro x hx
      have := hsub x hx
      rw [hmap] at this
      rw [List.mem_append] at this ⊢
      rcases this with hl | hr
      · rw [List.mem_append] at hl
        rcases hl with hll | hlr
        · exact Or.inl hll
        · rw [List.mem_singleton] at hlr
          refine Or.inr ?_
          simp [hlr]
      · refine Or.inr ?_
        simp only [List.map_cons]
        exact List.mem_cons_of_mem _ hr

/-- C7: `addBatch` is idempotent by batch identity — recording a batch
already present on the stack of a well-formed command (every stacked
identity is registered, as the code maintains) changes nothing, neither
the items nor the stored selection snapshots — and therefore the stack
built by any sequence of recordings from a fresh command never grows
beyond the number of distinct batch identities recorded. -/
theorem addBatch_dedup :
    (∀ (c : UndoCommand) (doc : Document) (b : Batch),
       (∀ i ∈ c.items, i.batch.id ∈ c.batchRegistry) →
       b.id ∈ c.items.map (fun i => i.batch.id) →
       addBatch c doc b = c) ∧
    (∀ (ty : BatchType) (bs : List (Document × Batch)),
       (recordAll (UndoCommand.make ty) bs).items.length
         ≤ (bs.map (fun p => p.2.id)).dedup.length) := by
  constructor
  · intro c doc b hreg hin
    rw [List.mem_map] at hin
    obtain ⟨i, hi, hid⟩ := hin
    have hb : b.id ∈ c.batchRegistry := hid ▸ hreg i hi
    simp [addBatch, hb]
  · intro ty bs
    obtain ⟨hnd, hsub⟩ := recordAll_inv bs (UndoCommand.make ty)
      (by simp [UndoCommand.make]) (by simp [UndoCommand.make])
    have hsub2 : (recordAll (UndoCommand.make ty) bs).items.map (fun i => i.batch.id)
        ⊆ bs.map (fun p => p.2.id) := by
      intro x hx
      have := hsub x hx
      simpa [UndoCommand.make] using this
    have hlen : (recordAll (UndoCommand.make ty) bs).items.length
        = ((recordAll (UndoCommand.make ty) bs).items.map (fun i => i.batch.id)).length := by
      simp
    rw [hlen]
    calc ((recordAll (UndoCommand.make ty) bs).items.map (fun i => i.batch.id)).length
        = ((recordAll (UndoCommand.make ty) bs).items.map
            (fun i => i.batch.id)).toFinset.card := (List.toFinset_card_of_nodup hnd).symm
      _ ≤ (bs.map (fun p => p.2.id)).toFinset.card := by
          apply Finset.card_le_card
          intro x hx
          rw [List.mem_toFinset] at hx ⊢
          exact hsub2 hx
      _ = (bs.map (fun p => p.2.id)).dedup.length := by
          rw [List.card_toFinset]

/-- Witness for C7: re-recording the already-present batch `b1` is a
no-op, and recording the same batch twice leaves at most one item. -/
theorem addBatch_dedup_witness :
    addBatch cW docW b1 = cW
    ∧ (recordAll (UndoCommand.make BatchType.undo) [(docW, b1), (docW, b1)]).items.length
        ≤ ([(docW, b1), (docW, b1)].map (fun p => p.2.id)).dedup.length :=
  ⟨addBatch_dedup.1 cW docW b1 (by decide) (by decide),
   addBatch_dedup.2 BatchType.undo [(docW, b1), (docW, b1)]⟩

/-- Unfolding of `doExecute` when the splice pops an item and the popped
batch has a first delta: the execution takes the success path. -/
theorem doExecute_ok_eq (eng : Engine) (c : UndoCommand) (doc : Document)
    (batch : Option Batch) (items2 : List HistoryItem) (undoItem : HistoryItem) (d0 : Delta)
    (hsplice : jsSpliceOne c.items (batchIndexOf c batch) = (items2, some undoItem))
    (hd0 : undoItem.batch.deltas.head? = some d0) :
    doExecute eng c doc batch =
      (let st := undoItem.batch.deltas.reverse.foldl (revertOne eng c.type)
        { history := doc.history, trace := doc.appliedOps
          origMap := c.originalDeltas, revDeltas := [] }
      let transformedRanges := undoItem.selection.ranges.filterMap
        (transformOneRange eng doc.graveyard (getDeltas st.history d0.baseVersion))
      Except.ok
        ({ c with items := items2, batchRegistry := registryDelete c batch
                  originalDeltas := st.origMap },
         { doc with history := st.history, appliedOps := st.trace
                    selection :=
                      if transformedRanges.isEmpty then doc.selection
                      else { ranges := transformedRanges
                             isBackward := undoItem.selection.isBackward } },
         { id := 0, type := c.type, deltas := st.revDeltas },
         undoItem.batch)) := by
  unfold doExecute
  simp only [hsplice, hd0]

/-- C1: For every item popped by a step, the item's batch deltas are
processed in reverse order: each one is reversed and rebased via
`history.getTransformedDelta`, every resulting (post-fixed) rebased
delta is added to a fresh reversion batch whose kind tag is the
executing command's kind, and each such delta's operations are applied
to the document in order (`stageASpec` spells out the per-delta Stage A
pipeline over the reversed delta list). -/
theorem doExecute_stageA (eng : Engine) (c : UndoCommand) (doc : Document)
    (batch : Option Batch) (items2 : List HistoryItem) (undoItem : HistoryItem)
    (c2 : UndoCommand) (doc2 : Document) (rb ub : Batch)
    (hsplice : jsSpliceOne c.items (batchIndexOf c batch) = (items2, some undoItem))
    (hok : doExecute eng c doc batch = .ok (c2, doc2, rb, ub)) :
    rb.type = c.type ∧
    rb.deltas = stageASpec eng c.type undoItem.batch.deltas.reverse doc.history
      c.originalDeltas ∧
    doc2.appliedOps = doc.appliedOps ++ rb.deltas.flatMap (fun d => d.operations) := by
  cases hd0 : undoItem.batch.deltas.head? with
  | none =>
    exfalso
    unfold doExecute at hok
    simp only [hsplice, hd0] at hok
    exact Except.noConfusion hok
  | some d0 =>
    rw [doExecute_ok_eq eng c doc batch items2 undoItem d0 hsplice hd0] at hok
    simp only [Except.ok.injEq, Prod.mk.injEq] at hok
    obtain ⟨hc2, hdoc2, hrb, hub⟩ := hok
    have hrev := revertFold_revDeltas eng c.type undoItem.batch.deltas.reverse
      { history := doc.history, trace := doc.appliedOps
        origMap := c.originalDeltas, revDeltas := [] }
    have htr := revertFold_trace eng c.type undoItem.batch.deltas.reverse
      { history := doc.history, trace := doc.appliedOps
        origMap := c.originalDeltas, revDeltas := [] }
    simp only [List.nil_append] at hrev htr
    refine ⟨?_, ?_, ?_⟩
    · rw [← hrb]
    · rw [← hrb]
      exact hrev
    · rw [← hdoc2, ← hrb]
      simp only []
      rw [htr, hrev]

/-- Witness for C1 at a concrete execution: reverting the stack holding
`b1` produces the reversion batch `rbW` of the command's kind whose
deltas are the Stage A output, with their operations applied. -/
theorem doExecute_stageA_witness :
    rbW.type = cW.type ∧
    rbW.deltas = stageASpec engW cW.type itW.batch.deltas.reverse docW.history
      cW.originalDeltas ∧
    docW2.appliedOps = docW.appliedOps ++ rbW.deltas.flatMap (fun d => d.operations) :=
  doExecute_stageA engW cW docW none [] itW cW2 docW2 rbW b1 rfl rfl

/-- C4: for every execution, if every transformed selection range ended
up in the graveyard (the list of surviving transformed ranges, collected
per saved range by `transformOneRange`, is empty) the document selection
is left untouched; otherwise the selection is set to exactly the
surviving ranges together with the `isBackward` flag captured in the
popped item's snapshot. -/
theorem doExecute_selection (eng : Engine) (c : UndoCommand) (doc : Document)
    (batch : Option Batch) (items2 : List HistoryItem) (undoItem : HistoryItem) (d0 : Delta)
    (c2 : UndoCommand) (doc2 : Document) (rb ub : Batch)
    (hsplice : jsSpliceOne c.items (batchIndexOf c batch) = (items2, some undoItem))
    (hd0 : undoItem.batch.deltas.head? = some d0)
    (hok : doExecute eng c doc batch = .ok (c2, doc2, rb, ub)) :
    (undoItem.selection.ranges.filterMap
        (transformOneRange eng doc.graveyard (getDeltas doc2.history d0.baseVersion)) = [] →
      doc2.selection = doc.selection) ∧
    (undoItem.selection.ranges.filterMap
        (transformOneRange eng doc.graveyard (getDeltas doc2.history d0.baseVersion)) ≠ [] →
      doc2.selection
        = { ranges := undoItem.selection.ranges.filterMap
              (transformOneRange eng doc.graveyard (getDeltas doc2.history d0.baseVersion))
            isBackward := undoItem.selection.isBackward }) := by
  rw [doExecute_ok_eq eng c doc batch items2 undoItem d0 hsplice hd0] at hok
  simp only [Except.ok.injEq, Prod.mk.injEq] at hok
  obtain ⟨hc2, hdoc2, hrb, hub⟩ := hok
  subst hdoc2
  simp only []
  constructor
  · intro hemp
    rw [hemp]
    simp
  · intro hne
    rw [if_neg (by simpa using hne)]

/-- Witness for C4 at a concrete execution: the snapshot range `r0`
survives the transformation, so the selection is set to exactly `[r0]`
with the recorded backward flag. -/
theorem doExecute_selection_witness :
    (itS.selection.ranges.filterMap
        (transformOneRange engW docW.graveyard (getDeltas docS2.history dS.baseVersion)) = [] →
      docS2.selection = docW.selection) ∧
    (itS.selection.ranges.filterMap
        (transformOneRange engW docW.graveyard (getDeltas docS2.history dS.baseVersion)) ≠ [] →
      docS2.selection
        = { ranges := itS.selection.ranges.filterMap
              (transformOneRange engW docW.graveyard (getDeltas docS2.history dS.baseVersion))
            isBackward := itS.selection.isBackward }) :=
  doExecute_selection engW cS docW none [] itS dS cS2 docS2 rbS bS rfl rfl rfl

/-- When no element satisfies the predicate, `findIdx?` finds nothing,
whatever the start index. -/
theorem findIdxNoneAux {α : Type _} (p : α → Bool) : ∀ (l : List α) (i : Nat),
    (∀ x ∈ l, p x = false) → l.findIdx? p i = none := by
  intro l
  induction l with
  | nil =>
    intro i h
    rfl
  | cons a l ih =>
    intro i h
    rw [List.findIdx?_cons, h a (List.mem_cons_self a l)]
    simp only [Bool.false_eq_true, if_false]
    exact ih (i + 1) (fun x hx => h x (List.mem_cons_of_mem a hx))

/-- When no element satisfies the predicate, `findIdx?` finds nothing. -/
theorem findIdxNone {α : Type _} (p : α → Bool) (l : List α)
    (h : ∀ x ∈ l, p x = false) : l.findIdx? p = none :=
  findIdxNoneAux p l 0 h

/-- `splice( -1, 1 )` on a non-empty array removes and returns the last
element. -/
theorem jsSpliceOne_neg_one {α : Type _} (l : List α) (hne : l ≠ []) :
    jsSpliceOne l (-1) = (l.dropLast, l.getLast?) := by
  simp only [jsSpliceOne]
  rw [if_pos (by decide : (-1 : Int) < 0)]
  have h2 : (-(-1 : Int)).toNat = 1 := rfl
  rw [h2]
  have h3 : l.length - 1 + 1 = l.length := by
    have : 0 < l.length := List.length_pos.mpr hne
    omega
  have hfst : l.take (l.length - 1) ++ l.drop (l.length - 1 + 1) = l.dropLast := by
    rw [h3, List.drop_length, List.append_nil, ← List.dropLast_eq_take]
  have hsnd : l.get? (l.length - 1) = l.getLast? := (List.getLast?_eq_get? l).symm
  rw [hfst, hsnd]

/-- C6 (amended): triggered on an empty stack without a target batch,
the step throws after changing nothing (error state carries the command
and document unchanged); triggered with a target batch that is not on a
non-empty stack, the command falls back to the top item: the last added
item is consumed and reverted (the step succeeds, the new stack is the
old one without its last item, and the revert event carries the top
item's batch, not the requested one). -/
theorem doExecute_missing_batch :
    (∀ (eng : Engine) (c : UndoCommand) (doc : Document), c.items = [] →
       doExecute eng c doc none = .error (c, doc)) ∧
    (∀ (eng : Engine) (c : UndoCommand) (doc : Document) (b : Batch) (it : HistoryItem),
       c.items.getLast? = some it →
       (∀ i ∈ c.items, i.batch.id ≠ b.id) →
       it.batch.deltas ≠ [] →
       (doExecute eng c doc (some b)).toOption.map (fun r => (r.fst.items, r.snd.snd.snd))
         = some (c.items.dropLast, it.batch)) := by
  constructor
  · intro eng c doc h
    obtain ⟨items, reg, ty, om⟩ := c
    simp only at h
    subst h
    rfl
  · intro eng c doc b it hlast hnid hdel
    have hne : c.items ≠ [] := by
      intro hcon
      rw [hcon] at hlast
      simp at hlast
    have hfind : c.items.findIdx? (fun a => a.batch.id == b.id) = none := by
      apply findIdxNone
      intro x hx
      simpa using hnid x hx
    have hidx : batchIndexOf c (some b) = -1 := by
      simp [batchIndexOf, hfind]
    have hsp : jsSpliceOne c.items (batchIndexOf c (some b))
        = (c.items.dropLast, some it) := by
      rw [hidx, jsSpliceOne_neg_one c.items hne, hlast]
    obtain ⟨d0, hd0⟩ : ∃ d0, it.batch.deltas.head? = some d0 := by
      cases hdl : it.batch.deltas with
      | nil => exact absurd hdl hdel
      | cons x xs => exact ⟨x, rfl⟩
    rw [doExecute_ok_eq eng c doc (some b) c.items.dropLast it d0 hsp hd0]
    simp [Except.toOption]

/-- C6 counterexample: executing with target batch `bX`, whose identity
2 is not on the stack (the only stacked identity is 1), is not a no-op —
it consumes the unrelated top item and reverts its batch `b1`, leaving
the stack empty. -/
theorem doExecute_missing_batch_counterexample :
    (doExecute engW cW docW (some bX)).toOption.map (fun r => (r.fst.items, r.snd.snd.snd))
      = some ([], b1)
    ∧ cW.items = [itW]
    ∧ itW.batch.id = 1
    ∧ bX.id = 2 := ⟨rfl, rfl, rfl, rfl⟩

/-- Witness for the amended C6 at concrete inputs: the empty stack
throws with no state change, and the absent batch `bX` makes the command
consume the top item `itW` and revert `b1`. -/
theorem doExecute_missing_batch_witness :
    doExecute engW (UndoCommand.make BatchType.undo) docW none
      = .error (UndoCommand.make BatchType.undo, docW)
    ∧ (doExecute engW cW docW (some bX)).toOption.map
        (fun r => (r.fst.items, r.snd.snd.snd)) = some (cW.items.dropLast, itW.batch) :=
  ⟨doExecute_missing_batch.1 engW (UndoCommand.make BatchType.undo) docW rfl,
   doExecute_missing_batch.2 engW cW docW bX itW rfl (by decide) (by decide)⟩

/-- C10 (amended): the original-delta map is a per-command-instance
structure created once in the constructor: a step only prepends entries
to it, so the entries created while reverting an item are retained after
the invocation completes (the old map is the suffix of the new one) and
remain available to the post-fix of later invocations. -/
theorem originalDeltas_persistent (eng : Engine) (c : UndoCommand) (doc : Document)
    (batch : Option Batch) (c2 : UndoCommand) (doc2 : Document) (rb ub : Batch)
    (hok : doExecute eng c doc batch = .ok (c2, doc2, rb, ub)) :
    c2.originalDeltas.drop (c2.originalDeltas.length - c.originalDeltas.length)
      = c.originalDeltas
    ∧ c.originalDeltas.length ≤ c2.originalDeltas.length := by
  cases hsp : jsSpliceOne c.items (batchIndexOf c batch) with
  | mk items2 removed =>
    cases removed with
    | none =>
      exfalso
      unfold doExecute at hok
      simp only [hsp] at hok
      exact Except.noConfusion hok
    | some it =>
      cases hd0 : it.batch.deltas.head? with
      | none =>
        exfalso
        unfold doExecute at hok
        simp only [hsp, hd0] at hok
        exact Except.noConfusion hok
      | some d0 =>
        rw [doExecute_ok_eq eng c doc batch items2 it d0 hsp hd0] at hok
        simp only [Except.ok.injEq, Prod.mk.injEq] at hok
        obtain ⟨hc2, hdoc2, hrb, hub⟩ := hok
        obtain ⟨m2, hm2⟩ := revertFold_origMap eng c.type it.batch.deltas.reverse
          { history := doc.history, trace := doc.appliedOps
            origMap := c.originalDeltas, revDeltas := [] }
        simp only [] at hm2
        have hc2om : c2.originalDeltas = m2 ++ c.originalDeltas := by
          rw [← hc2]
          exact hm2
        rw [hc2om]
        constructor
        · have hlen : (m2 ++ c.originalDeltas).length - c.originalDeltas.length
              = m2.length := by
            simp
          rw [hlen, List.drop_left]
        · simp

/-- Witness for the amended C10 at a concrete execution: the map entry
`(1, d1)` created during the step is retained after it completes. -/
theorem originalDeltas_persistent_witness :
    cW2.originalDeltas.drop (cW2.originalDeltas.length - cW.originalDeltas.length)
      = cW.originalDeltas
    ∧ cW.originalDeltas.length ≤ cW2.originalDeltas.length :=
  originalDeltas_persistent engW cW docW none cW2 docW2 rbW b1 rfl

/-- C10 counterexample: after the invocation on `cW` completes, the
original-delta map of the command still holds the entry created during
the step (it started empty), so per-execution entries are not
discarded. -/
theorem originalDeltas_retained_counterexample :
    (doExecute engW cW docW none).toOption.map (fun r => r.fst.originalDeltas)
      = some [(1, d1)]
    ∧ cW.originalDeltas = []
    ∧ ([(1, d1)] : List (Nat × Delta)) ≠ [] := ⟨rfl, rfl, by decide⟩

/-- C8 (code evaluated at the failing input): executing without an
explicit batch deletes `null` from the registry, so the popped batch's
identity 1 stays registered while the stack empties; consequently
re-recording the same batch `b1` is refused; and `clearStack` drops
items but leaves the registry untouched. -/
theorem popped_identity_not_removed :
    (doExecute engW cW docW none).toOption.map
        (fun r => (r.fst.items, r.fst.batchRegistry)) = some ([], [1])
    ∧ addBatch cW2 docW b1 = cW2
    ∧ (clearStack cW).items = []
    ∧ (clearStack cW).batchRegistry = [1] := ⟨rfl, rfl, rfl, rfl⟩

/-- C9 (code evaluated at the failing input): a user batch whose only
operation touches only the detached root 99 (no document root) is
nevertheless recorded on the undo stack by the change-stream listener —
the listener routes on the kind tag alone and performs no
document-root check. -/
theorem nondocument_batch_recorded :
    batchIsNonDocument docW.roots bDet = true
    ∧ (onChangeBatch e0 docW bDet).undoCommand.items
        = [{ batch := bDet, selection := selW }]
    ∧ (onChangeBatch e0 docW bDet).redoCommand.items = [] := ⟨rfl, rfl, rfl⟩
